import Mathlib

/-!
Verification of the streaming audio denoiser in `denoise.py` against its
natural-language specification.

The model is a shallow embedding of the numeric pipeline of
`AudioDeNoise.deNoise` (src/denoise.py, lines 61-92) and of the noise-profile
wrappers `generateNoiseProfile` / `generateNoiseProfileTo` (lines 94-150).

Conventions of the embedding:
* Audio samples and wavelet coefficients are exact rationals (`ℚ`); the exact
  model idealises IEEE doubles, except where an IEEE operation produces NaN,
  which is modelled explicitly as `none` in `Option ℚ`.
* The wavelet transform is pywt's `dwt`/`idwt`/`wavedec`/`waverec` with
  `mode='per'` (periodization).  The Daubechies-4 filter taps are tabulated
  double-precision constants in pywt, so the model takes the four filter tap
  lists (`lo`, `hi` analysis, `rlo`, `rhi` synthesis) as parameters; every
  theorem below either holds for all tap values or takes the properties of the
  taps it needs as explicit hypotheses.
* `sqrt(2·log n)` from the VisuShrink threshold is transcendental; the pipeline
  model takes the function `g : ℕ → ℚ` computing it as a parameter (the code's
  threshold is `sigma * g n`), and the exact real-number formula is stated
  separately over `ℝ` as a relation.
* File I/O (`soundfile`, `os.path.exists`) is modelled by an explicit
  file-system state mapping paths to optional contents.
-/

namespace AudioDenoise

/-- Python `int()` applied to a rational: truncation toward zero. -/
def truncInt (q : ℚ) : ℤ :=
  if 0 ≤ q then ⌊q⌋ else ⌈q⌉

/-- Block size computed by `deNoise` (denoise.py line 78):
`int(rate * info.duration * 0.10)`.  `info.duration` is `frames / samplerate`. -/
def blockSize (rate : ℕ) (duration : ℚ) : ℤ :=
  truncInt ((rate : ℚ) * duration * (1 / 10))

/-- Modelled from the spec's words, for comparison with `blockSize`: the spec
(§4.1 step 2) prescribes `blockSize = round(rate * duration * 0.10)`
(round half up). -/
def blockSizeSpec (rate : ℕ) (duration : ℚ) : ℤ :=
  ⌊(rate : ℚ) * duration * (1 / 10) + 1 / 2⌋

/-- Insert a rational into a sorted list (used to model numpy's sort inside
`np.median`; the sorted sequence of values is algorithm-independent). -/
def insertSorted (x : ℚ) : List ℚ → List ℚ
  | [] => [x]
  | y :: t => if x ≤ y then x :: y :: t else y :: insertSorted x t

/-- Sort a list of rationals (model of the sort performed by `np.median`). -/
def sortQ : List ℚ → List ℚ
  | [] => []
  | x :: t => insertSorted x (sortQ t)

/-- `np.median`: sort; odd length takes the middle element, even length the
mean of the two middle elements.  `np.median` of an empty array is NaN
(modelled as `none`). -/
def median (l : List ℚ) : Option ℚ :=
  if l = [] then none
  else
    let s := sortQ l
    let n := s.length
    if n % 2 = 1 then some (s.getD (n / 2) 0)
    else some ((s.getD (n / 2 - 1) 0 + s.getD (n / 2) 0) / 2)

/-- `mad` (denoise.py lines 18-25): median absolute deviation.
`np.ma.array(arr).compressed()` is the identity on an ordinary array, so the
model is `median |arr - median arr|`; an empty array gives NaN (`none`). -/
def mad (arr : List ℚ) : Option ℚ :=
  match median arr with
  | none => none
  | some med => median (arr.map (fun x => |x - med|))

/-- One element of pywt's soft thresholding
(`pywt.threshold(data, value, mode='soft')`, used at denoise.py line 88).
pywt computes `data * clip(1 - value/|data|, min=0)` in IEEE arithmetic:
* `|x| ≠ 0`: exact value `x * max (1 - t/|x|) 0`;
* `|x| = 0, t > 0`: `t/0 = +inf`, `1 - inf = -inf`, clipped to `0`, `0·0 = 0`;
* `|x| = 0, t = 0`: `0/0 = NaN`, which clip and `0·NaN` propagate → NaN;
* `|x| = 0, t < 0`: `t/0 = -inf`, `1+inf = +inf`, clip keeps `+inf`,
  `0·(+inf) = NaN`.
NaN is modelled as `none`. -/
def softElem (x t : ℚ) : Option ℚ :=
  if |x| = 0 then (if 0 < t then some 0 else none)
  else some (x * max (1 - t / |x|) 0)

/-- pywt soft thresholding of a whole coefficient array. -/
def softThreshold (l : List ℚ) (t : ℚ) : List (Option ℚ) :=
  l.map (fun x => softElem x t)

/-- Sign function on `ℚ` (the `sign(x)` of the spec's shrinkage formula §4.4). -/
def sgn (x : ℚ) : ℚ :=
  if x < 0 then -1 else if x = 0 then 0 else 1

/-- Split a sample stream into consecutive blocks of `B` samples, the last
block possibly shorter (model of `soundfile.blocks(file, B)`); fuel-driven
so the recursion is structural. -/
def chunkGo (B : ℕ) : ℕ → List ℚ → List (List ℚ)
  | 0, _ => []
  | _, [] => []
  | fuel + 1, l => l.take B :: chunkGo B fuel (l.drop B)

/-- Blocks of `B` samples read from the stream `l`, in order. -/
def chunk (B : ℕ) (l : List ℚ) : List (List ℚ) :=
  chunkGo B l.length l

/-- Lengths of the blocks of an `N`-sample stream cut into `B`-sample blocks. -/
def chunkLens (B N : ℕ) : List ℕ :=
  List.replicate (N / B) B ++ (if N % B = 0 then [] else [N % B])

/-- pywt periodization: an odd-length signal is first extended by repeating
its last sample, making the length even. -/
def perExtend (l : List ℚ) : List ℚ :=
  if l.length % 2 = 1 then l ++ [l.getLastD 0] else l

/-- Circular (periodic) access into a sample list. -/
def cyc (l : List ℚ) (t : ℤ) : ℚ :=
  l.getD ((t % (l.length : ℤ)).toNat) 0

/-- One output half of a single-level periodized DWT (`pywt.dwt` with
`mode='per'`): convolution of the periodically extended signal with the
analysis filter `f`, downsampled by 2; output length `⌈len/2⌉`. -/
def dwtHalf (f : List ℚ) (x : List ℚ) : List ℚ :=
  let e := perExtend x
  (List.range (e.length / 2)).map (fun (i : ℕ) =>
    ∑ j ∈ Finset.range f.length,
      f.getD j 0 * cyc e (2 * (i : ℤ) + 1 - (j : ℤ)))

/-- `pywt.wavedec(x, mode='per', level = L)` with analysis filters `lo`, `hi`:
the coefficient list `[cA_L, cD_L, ..., cD_1]`. -/
def wavedec (lo hi : List ℚ) : ℕ → List ℚ → List (List ℚ)
  | 0, x => [x]
  | L + 1, x => wavedec lo hi L (dwtHalf lo x) ++ [dwtHalf hi x]

/-- Upsampled circular access: the upsampling-by-2 of coefficient list `c`
(zeros interleaved), read periodically with period `2·len c`. -/
def upCyc (c : List ℚ) (t : ℤ) : ℚ :=
  let t' := (t % (2 * (c.length : ℤ))).toNat
  if t' % 2 = 0 then c.getD (t' / 2) 0 else 0

/-- `pywt.idwt` with `mode='per'`: upsample both coefficient arrays, convolve
circularly with the synthesis filters, and add; output length `2·len ca`.
For an orthogonal wavelet pywt's synthesis filters are the reversed analysis
filters, which fixes the phase offset `len f - 2` used here. -/
def idwtPer (rlo rhi : List ℚ) (ca cd : List ℚ) : List ℚ :=
  (List.range (2 * ca.length)).map (fun (k : ℕ) =>
    (∑ j ∈ Finset.range rlo.length,
      rlo.getD j 0 * upCyc ca ((k : ℤ) - (j : ℤ) - 2 + rlo.length))
    + ∑ j ∈ Finset.range rhi.length,
      rhi.getD j 0 * upCyc cd ((k : ℤ) - (j : ℤ) - 2 + rhi.length))

/-- The level-folding loop of `pywt.waverec`: repeatedly `idwt` the running
approximation with the next detail array; when the approximation is one
sample longer than the detail (odd-length periodization), its last sample is
dropped first; any larger mismatch is a `ValueError` (`none`). -/
def waverecGo (rlo rhi : List ℚ) : List ℚ → List (List ℚ) → Option (List ℚ)
  | a, [] => some a
  | a, d :: ds =>
    if a.length = d.length then waverecGo rlo rhi (idwtPer rlo rhi a d) ds
    else if a.length = d.length + 1 then
      waverecGo rlo rhi (idwtPer rlo rhi a.dropLast d) ds
    else none

/-- `pywt.waverec(coeffs, mode='per')` with synthesis filters `rlo`, `rhi`. -/
def waverec (rlo rhi : List ℚ) (cs : List (List ℚ)) : Option (List ℚ) :=
  match cs with
  | [] => none
  | a :: ds => waverecGo rlo rhi a ds

/-! NaN-propagating arithmetic on `Option ℚ` (`none` = IEEE NaN), used for the
reconstruction of coefficient arrays that passed through soft thresholding. -/
/-- IEEE addition with NaN propagation. -/
def oadd : Option ℚ → Option ℚ → Option ℚ
  | some a, some b => some (a + b)
  | _, _ => none

/-- Multiplication of a (never-NaN) filter tap with a possibly-NaN value:
`q · NaN = NaN` for every `q`, including `q = 0`. -/
def osmul (q : ℚ) : Option ℚ → Option ℚ
  | some a => some (q * a)
  | none => none

/-- Sum of a list of possibly-NaN values. -/
def osum (l : List (Option ℚ)) : Option ℚ :=
  l.foldr oadd (some 0)

/-- Upsampled circular access into a possibly-NaN coefficient list. -/
def upCycO (c : List (Option ℚ)) (t : ℤ) : Option ℚ :=
  let t' := (t % (2 * (c.length : ℤ))).toNat
  if t' % 2 = 0 then c.getD (t' / 2) (some 0) else some 0

/-- `pywt.idwt` (`mode='per'`) over possibly-NaN coefficient arrays. -/
def idwtPerO (rlo rhi : List ℚ) (ca cd : List (Option ℚ)) : List (Option ℚ) :=
  (List.range (2 * ca.length)).map (fun (k : ℕ) =>
    oadd
      (osum ((List.range rlo.length).map (fun j =>
        osmul (rlo.getD j 0) (upCycO ca ((k : ℤ) - (j : ℤ) - 2 + rlo.length)))))
      (osum ((List.range rhi.length).map (fun j =>
        osmul (rhi.getD j 0) (upCycO cd ((k : ℤ) - (j : ℤ) - 2 + rhi.length))))))

/-- `pywt.waverec` level-folding loop over possibly-NaN coefficient arrays. -/
def waverecGoO (rlo rhi : List ℚ) :
    List (Option ℚ) → List (List (Option ℚ)) → Option (List (Option ℚ))
  | a, [] => some a
  | a, d :: ds =>
    if a.length = d.length then waverecGoO rlo rhi (idwtPerO rlo rhi a d) ds
    else if a.length = d.length + 1 then
      waverecGoO rlo rhi (idwtPerO rlo rhi a.dropLast d) ds
    else none

/-- `pywt.waverec(coeffs, mode='per')` over possibly-NaN coefficient arrays. -/
def waverecO (rlo rhi : List ℚ) (cs : List (List (Option ℚ))) :
    Option (List (Option ℚ)) :=
  match cs with
  | [] => none
  | a :: ds => waverecGoO rlo rhi a ds

/-- The thresholding step at denoise.py line 88:
`coefficients[1:] = (pywt.threshold(i, value=thresh, mode='soft') for i in
coefficients[1:])` — every detail array is soft-thresholded, the
approximation at index 0 is left untouched. -/
def threshCoeffs (cs : List (List ℚ)) (t : ℚ) : List (List (Option ℚ)) :=
  match cs with
  | [] => []
  | a :: ds => a.map some :: ds.map (fun d => softThreshold d t)

/-- Processing of one block (denoise.py lines 79-91): level-2 periodized
`wavedec` with analysis filters `lo`, `hi`; `sigma = mad(coefficients[-1])`;
`thresh = sigma * sqrt(2·log(len block))` where `g` computes
`sqrt(2·log ·)`; soft thresholding of all detail arrays; `waverec` with
synthesis filters `rlo`, `rhi`. -/
def processBlock (g : ℕ → ℚ) (lo hi rlo rhi : List ℚ) (b : List ℚ) :
    Option (List (Option ℚ)) :=
  match mad ((wavedec lo hi 2 b).getLastD []) with
  | none => none
  | some sigma =>
    waverecO rlo rhi (threshCoeffs (wavedec lo hi 2 b) (sigma * g b.length))

/-- The block loop of `deNoise`: process each block in order, failing as a
whole if any block fails. -/
def processAll (p : List ℚ → Option (List (Option ℚ))) :
    List (List ℚ) → Option (List (List (Option ℚ)))
  | [] => some []
  | b :: bs =>
    match p b, processAll p bs with
    | some o, some os => some (o :: os)
    | _, _ => none

/-- `AudioDeNoise.deNoise` (denoise.py lines 61-91), single channel, exact
arithmetic: cut the input into blocks of
`int(rate * duration * 0.10)` samples and concatenate the processed blocks.
`duration = frames / samplerate` as reported by `soundfile.info`.
A zero block size with a nonempty input makes `soundfile.blocks` loop
forever reading empty blocks; this divergence is modelled as `none`. -/
def deNoiseModel (g : ℕ → ℚ) (lo hi rlo rhi : List ℚ) (rate : ℕ)
    (input : List ℚ) : Option (List (Option ℚ)) :=
  let B := (blockSize rate ((input.length : ℚ) / (rate : ℚ))).toNat
  if input = [] then some []
  else if B = 0 then none
  else (processAll (processBlock g lo hi rlo rhi) (chunk B input)).map List.flatten

/-! Degenerate blocks and the silent-input behaviour. -/
/-- The exact real value of the VisuShrink threshold
`thresh = sigma * np.sqrt(2 * np.log(len(block)))` (denoise.py line 85),
stated as a relation over `ℝ` because `sqrt` and `log` are transcendental. -/
def visuThreshold (sigma : ℝ) (n : ℕ) (t : ℝ) : Prop :=
  t = sigma * Real.sqrt (2 * Real.log n)

/-! The noise-profile wrappers (denoise.py lines 94-150) and their file-system
boundary. -/
/-- Contents of an audio file: samples and sample rate. -/
structure AudioData where
  samples : List ℚ
  rate : ℕ
deriving DecidableEq

/-- The file system as seen by the noise-profile wrappers: contents per path
(`none` = no file, so `os.path.exists` is `isSome`), whether a present file
can be decoded, and whether a path can be written; `readMsg`/`writeMsg` are
the exception messages the audio-I/O library raises on failure. -/
structure FileSystem where
  contents : String → Option AudioData
  readOk : String → Bool
  readMsg : String → String
  writeOk : String → Bool
  writeMsg : String → String

/-- `soundfile.read` on an existing path: corrupt/unreadable input raises
with the library's cause message. -/
def fsRead (fs : FileSystem) (p : String) : Except String AudioData :=
  match fs.contents p with
  | none => .error (fs.readMsg p)
  | some d => if fs.readOk p then .ok d else .error (fs.readMsg p)

/-- `soundfile.write`: an unwritable path raises with the library's cause
message; a successful write replaces the contents at that path. -/
def fsWrite (fs : FileSystem) (p : String) (d : AudioData) :
    Except String FileSystem :=
  if fs.writeOk p then
    .ok { fs with contents := fun q => if q = p then some d else fs.contents q }
  else .error (fs.writeMsg p)

/-- Error taxonomy of the wrappers, as raised by the code:
`FileNotFoundError` for a missing input; a `RuntimeError` wrapping the
underlying cause for a read/decode failure (`generateNoiseProfile` and
`generateNoiseProfileTo`, the spec's `IOError` kind at the read boundary);
a `RuntimeError` wrapping the cause for a write failure in
`generateNoiseProfileTo`; and the bare uncaught library exception for a
write failure in `generateNoiseProfile`, whose write is not wrapped. -/
inductive ProfileError where
  | notFound (path : String)
  | readFail (path cause : String)
  | writeFail (path cause : String)
  | uncaught (cause : String)
deriving DecidableEq

/-- `AudioDeNoise.generateNoiseProfileTo` (denoise.py lines 122-150):
validate existence, read the noise sample (wrapping a read failure), run the
opaque `NoiseProfiler` (`profiler`), and write the predicted noise to the
caller-specified output path at the input's sample rate (wrapping a write
failure). -/
def generateNoiseProfileTo (profiler : List ℚ → List ℚ) (fs : FileSystem)
    (noiseFile outputFile : String) : Except ProfileError FileSystem :=
  if (fs.contents noiseFile).isSome = false then
    .error (.notFound noiseFile)
  else
    match fsRead fs noiseFile with
    | .error cause => .error (.readFail noiseFile cause)
    | .ok d =>
      match fsWrite fs outputFile ⟨profiler d.samples, d.rate⟩ with
      | .error cause => .error (.writeFail outputFile cause)
      | .ok fs2 => .ok fs2

/-- `AudioDeNoise.generateNoiseProfile` (denoise.py lines 94-120): same
validation and read wrapping, but the predicted noise overwrites the input
path itself ("overwrite the source (legacy behavior)") and the write is not
wrapped in a try/except, so a write failure propagates as the bare library
exception. -/
def generateNoiseProfile (profiler : List ℚ → List ℚ) (fs : FileSystem)
    (noiseFile : String) : Except ProfileError FileSystem :=
  if (fs.contents noiseFile).isSome = false then
    .error (.notFound noiseFile)
  else
    match fsRead fs noiseFile with
    | .error cause => .error (.readFail noiseFile cause)
    | .ok d =>
      match fsWrite fs noiseFile ⟨profiler d.samples, d.rate⟩ with
      | .error cause => .error (.uncaught cause)
      | .ok fs2 => .ok fs2

/-! Round-trip law of the periodized wavelet transform. -/
/-- Total weight with which input sample `x_k` contributes to the analysis
output at index `i` when the filter `f` is circularly convolved with an
`n`-periodic signal and downsampled by 2 (the phase `2i+1-j` of `dwtHalf`). -/
def perWeight (f : List ℚ) (n : ℕ) (i k : ℕ) : ℚ :=
  ∑ j ∈ Finset.range f.length,
    if (2 * (i : ℤ) + 1 - (j : ℤ)) % (n : ℤ) = (k : ℤ) then f.getD j 0 else 0

/-- Exact orthonormality of the periodized analysis rows of the filter pair
`(lo, hi)` at even signal length `n`: the perfect-reconstruction property of
an orthogonal wavelet filter bank.  The Daubechies-4 filter satisfies this
identity exactly over the reals; its tabulated double-precision taps satisfy
it up to floating-point rounding, which is what the spec's "within
floating-point tolerance" refers to. -/
def orthoRows (lo hi : List ℚ) (n : ℕ) : Prop :=
  ∀ k ∈ Finset.range n, ∀ k' ∈ Finset.range n,
    (∑ i ∈ Finset.range (n / 2),
      (perWeight lo n i k * perWeight lo n i k' +
       perWeight hi n i k * perWeight hi n i k')) =
    if k = k' then 1 else 0

instance orthoRowsDecidable (lo hi : List ℚ) (n : ℕ) :
    Decidable (orthoRows lo hi n) := by
  unfold orthoRows
  exact inferInstance

theorem chunkGo_nil (B f : ℕ) : chunkGo B f [] = [] := by
  cases f <;> rfl

theorem chunkGo_fuel_eq (B : ℕ) (hB : 0 < B) :
    ∀ (f₁ f₂ : ℕ) (l : List ℚ), l.length ≤ f₁ → l.length ≤ f₂ →
      chunkGo B f₁ l = chunkGo B f₂ l := by
  intro f₁
  induction f₁ with
  | zero =>
    intro f₂ l hl _
    have : l = [] := List.eq_nil_of_length_eq_zero (Nat.le_zero.mp hl)
    subst this
    rw [chunkGo_nil, chunkGo_nil]
  | succ m ih =>
    intro f₂ l hl₁ hl₂
    match l with
    | [] => rw [chunkGo_nil, chunkGo_nil]
    | a :: t =>
      match f₂ with
      | 0 => simp at hl₂
      | k + 1 =>
        have hd : (List.drop B (a :: t)).length ≤ t.length := by
          simp only [List.length_drop, List.length_cons]
          omega
        have hm : t.length ≤ m := by simpa using hl₁
        have hk : t.length ≤ k := by simpa using hl₂
        show (a :: t).take B :: chunkGo B m ((a :: t).drop B) =
          (a :: t).take B :: chunkGo B k ((a :: t).drop B)
        rw [ih k ((a :: t).drop B) (le_trans hd hm) (le_trans hd hk)]

theorem chunk_cons (B : ℕ) (hB : 0 < B) (l : List ℚ) (hl : l ≠ []) :
    chunk B l = l.take B :: chunk B (l.drop B) := by
  match l with
  | a :: t =>
    show chunkGo B (t.length + 1) (a :: t) = _
    have h2 : chunkGo B (t.length + 1) (a :: t) =
        (a :: t).take B :: chunkGo B t.length ((a :: t).drop B) := rfl
    rw [h2, chunk, chunkGo_fuel_eq B hB t.length ((a :: t).drop B).length
      ((a :: t).drop B)
      (by simp only [List.length_drop, List.length_cons]; omega) le_rfl]

theorem chunk_map_length (B : ℕ) (hB : 0 < B) (l : List ℚ) :
    (chunk B l).map List.length = chunkLens B l.length := by
  generalize hN : l.length = N
  induction N using Nat.strong_induction_on generalizing l with
  | _ N ih =>
    match l with
    | [] =>
      simp at hN
      simp [chunk, chunkGo, chunkLens, ← hN]
    | a :: t =>
      have hne : (a :: t) ≠ [] := by simp
      rw [chunk_cons B hB _ hne]
      have hNpos : 0 < N := by rw [← hN]; simp
      by_cases hcase : N ≤ B
      · have hdroplen : ((a :: t).drop B).length = 0 := by
          simp only [List.length_drop, hN]; omega
        have hdrop : (a :: t).drop B = [] :=
          List.eq_nil_of_length_eq_zero hdroplen
        have htake : ((a :: t).take B).length = N := by
          simp only [List.length_take, hN]; omega
        rw [hdrop]
        rcases eq_or_lt_of_le hcase with hEq | hlt
        · subst hEq
          simp [chunk, chunkGo, chunkLens, htake, Nat.div_self hB, Nat.mod_self]
        · have hdiv : N / B = 0 := Nat.div_eq_of_lt hlt
          have hmod : N % B = N := Nat.mod_eq_of_lt hlt
          simp [chunk, chunkGo, chunkLens, htake, hdiv, hmod, hNpos.ne']
      · push_neg at hcase
        have htake : ((a :: t).take B).length = B := by
          simp only [List.length_take, hN]; omega
        have hdroplen : ((a :: t).drop B).length = N - B := by
          simp only [List.length_drop, hN]
        have hrec := ih (N - B) (by omega) ((a :: t).drop B) hdroplen
        simp only [List.map_cons, htake, hrec]
        have hdiv : N / B = (N - B) / B + 1 :=
          Nat.div_eq_sub_div hB (le_of_lt hcase)
        have hmod : N % B = (N - B) % B :=
          (Nat.mod_eq_sub_mod (le_of_lt hcase)).symm.symm
        rw [chunkLens, chunkLens, hdiv, hmod]
        simp [List.replicate_succ]

/-! Basic structural lemmas about the model. -/
theorem perExtend_length (l : List ℚ) :
    (perExtend l).length = 2 * ((l.length + 1) / 2) := by
  unfold perExtend
  by_cases h : l.length % 2 = 1
  · rw [if_pos h]
    simp only [List.length_append, List.length_cons, List.length_nil]
    omega
  · rw [if_neg h]
    omega

theorem dwtHalf_length (f x : List ℚ) :
    (dwtHalf f x).length = (x.length + 1) / 2 := by
  unfold dwtHalf
  simp only [List.length_map, List.length_range]
  rw [perExtend_length]
  omega

theorem wavedec_length (lo hi : List ℚ) (L : ℕ) (x : List ℚ) :
    (wavedec lo hi L x).length = L + 1 := by
  induction L generalizing x with
  | zero => rfl
  | succ n ih => simp [wavedec, ih]

theorem wavedec_two (lo hi b : List ℚ) :
    wavedec lo hi 2 b =
      [dwtHalf lo (dwtHalf lo b), dwtHalf hi (dwtHalf lo b), dwtHalf hi b] := rfl

theorem median_isSome (l : List ℚ) (h : l ≠ []) : (median l).isSome := by
  unfold median
  simp only [h, if_false]
  split <;> simp

theorem mad_isSome (l : List ℚ) (h : l ≠ []) : (mad l).isSome := by
  have hs := median_isSome l h
  unfold mad
  cases hm : median l with
  | none => rw [hm] at hs; simp at hs
  | some med =>
    have hmap : l.map (fun x => |x - med|) ≠ [] := by simpa using h
    simpa using median_isSome _ hmap

theorem oadd_none_right (x : Option ℚ) : oadd x none = none := by
  cases x <;> rfl

theorem osum_cons (x : Option ℚ) (t : List (Option ℚ)) :
    osum (x :: t) = oadd x (osum t) := rfl

theorem osum_eq_none (l : List (Option ℚ)) (h : none ∈ l) : osum l = none := by
  induction l with
  | nil => simp at h
  | cons x t ih =>
    rw [osum_cons]
    rcases List.mem_cons.mp h with h1 | h2
    · rw [← h1]; rfl
    · rw [ih h2, oadd_none_right]

theorem idwtPerO_length (rlo rhi : List ℚ) (ca cd : List (Option ℚ)) :
    (idwtPerO rlo rhi ca cd).length = 2 * ca.length := by
  unfold idwtPerO
  rw [List.length_map, List.length_range]

theorem softThreshold_length (l : List ℚ) (t : ℚ) :
    (softThreshold l t).length = l.length := by
  simp [softThreshold]

theorem softElem_zero_thresh (x : ℚ) (hx : x ≠ 0) : softElem x 0 = some x := by
  have habs : ¬(|x| = 0) := by simpa [abs_eq_zero] using hx
  simp [softElem, habs, max_eq_left zero_le_one]

theorem sgn_of_pos {x : ℚ} (h : 0 < x) : sgn x = 1 := by
  simp [sgn, not_lt.mpr h.le, h.ne']

theorem sgn_of_neg {x : ℚ} (h : x < 0) : sgn x = -1 := by
  simp [sgn, h]

theorem softElem_eq_shrink (x t : ℚ) (h : x ≠ 0 ∨ 0 < t) :
    softElem x t = some (sgn x * max (|x| - t) 0) := by
  by_cases hx : x = 0
  · subst hx
    have ht : 0 < t := h.resolve_left (by simp)
    simp [softElem, sgn, ht]
  · have habs : ¬(|x| = 0) := by simpa [abs_eq_zero] using hx
    rw [softElem, if_neg habs]
    rcases lt_trichotomy x 0 with hneg | hzero | hpos
    · rw [sgn_of_neg hneg, abs_of_neg hneg]
      have hx' : (0:ℚ) < -x := by linarith
      have key : x * max (1 - t / -x) 0 = -1 * max (-x - t) 0 := by
        have h1 : x * max (1 - t / -x) 0 = -(-x * max (1 - t / -x) 0) := by ring
        rw [h1, mul_max_of_nonneg _ _ hx'.le]
        have h2 : -x * (1 - t / -x) = -x - t := by field_simp
        rw [h2, mul_zero]
        ring
      rw [key]
    · exact absurd hzero hx
    · rw [sgn_of_pos hpos, abs_of_pos hpos]
      rw [mul_max_of_nonneg _ _ hpos.le]
      have h2 : x * (1 - t / x) = x - t := by field_simp
      rw [h2, mul_zero, one_mul]

theorem blockSize_frames (rate N : ℕ) (hr : 0 < rate) :
    blockSize rate ((N : ℚ) / (rate : ℚ)) = ((N / 10 : ℕ) : ℤ) := by
  have hrQ : (rate : ℚ) ≠ 0 := Nat.cast_ne_zero.mpr hr.ne'
  have h1 : (rate : ℚ) * ((N : ℚ) / (rate : ℚ)) * (1 / 10) =
      (N : ℚ) / ((10 : ℕ) : ℚ) := by
    field_simp
  unfold blockSize truncInt
  rw [h1, if_pos (by positivity)]
  rw [Rat.floor_natCast_div_natCast N 10]
  omega

/-- C2 counterexample: `deNoise` truncates `rate * duration * 0.10` with
Python `int()`, it does not round.  A 16000 Hz file of 25609 frames has
`duration = 25609/16000`, so `rate*duration*0.10 = 2560.9`; the code's block
size is 2560 while the spec's `round` gives 2561. -/
theorem blockSize_truncates_not_rounds :
    blockSize 16000 ((25609 : ℚ) / 16000) = 2560 ∧
    blockSizeSpec 16000 ((25609 : ℚ) / 16000) = 2561 ∧
    (2560 : ℤ) ≠ 2561 := by
  refine ⟨?_, ?_, by decide⟩
  · norm_num [blockSize, truncInt]
  · norm_num [blockSizeSpec]

/-- C2 amended: for every `rate > 0` and frame count `N`, the engine's block
size is the truncation `⌊rate * (N/rate) * 0.10⌋ = N / 10` (not the rounded
value); the spec's 16000 Hz, 1.6 s example (`N = 25600`) does give block size
2560 and exactly 10 full blocks with no remainder. -/
theorem blockSize_spec_amended (rate N : ℕ) (hr : 0 < rate) :
    blockSize rate ((N : ℚ) / (rate : ℚ)) = ((N / 10 : ℕ) : ℤ) ∧
    blockSize 16000 ((25600 : ℚ) / 16000) = 2560 ∧
    (chunk 2560 (List.replicate 25600 (0 : ℚ))).map List.length =
      List.replicate 10 2560 := by
  refine ⟨blockSize_frames rate N hr, ?_, ?_⟩
  · have h := blockSize_frames 16000 25600 (by norm_num)
    have hc : ((25600 : ℕ) : ℚ) / ((16000 : ℕ) : ℚ) = (25600 : ℚ) / 16000 := by
      norm_num
    rw [hc] at h
    rw [h]
    decide
  · rw [chunk_map_length 2560 (by norm_num)]
    simp only [List.length_replicate]
    decide

/-- C2 witness: the general truncation statement instantiated at a 16000 Hz,
25609-frame input. -/
theorem blockSize_spec_amended_witness :
    blockSize 16000 (((25609 : ℕ) : ℚ) / ((16000 : ℕ) : ℚ)) = ((25609 / 10 : ℕ) : ℤ) :=
  (blockSize_spec_amended 16000 25609 (by norm_num)).1

/-- C4 counterexample: `mad` of an empty array is `np.median([])`, which is
NaN (`none`), not 0; and with `sigma = 0` the threshold is 0, under which a
zero-valued detail coefficient does not pass through unshrunk — pywt's soft
rule computes `0 · (1 - 0/0) = NaN` for it. -/
theorem mad_empty_is_nan :
    mad ([] : List ℚ) = none ∧ softElem 0 0 = none := by
  decide

/-- C4 amended: the MAD estimator returns 0 for every length-1 array; a
length-0 array yields NaN (`none`), not 0, and no exception.  `sigma = 0`
makes the threshold `0 * g n = 0`, under which every nonzero detail
coefficient passes through unshrunk (zero coefficients become NaN). -/
theorem mad_small_arrays (x : ℚ) (g : ℕ → ℚ) (n : ℕ) (hx : x ≠ 0) :
    mad [x] = some 0 ∧ mad ([] : List ℚ) = none ∧
    (0 : ℚ) * g n = 0 ∧ softElem x ((0 : ℚ) * g n) = some x := by
  refine ⟨?_, by decide, zero_mul _, ?_⟩
  · simp [mad, median, sortQ, insertSorted]
  · rw [zero_mul]
    exact softElem_zero_thresh x hx

/-- C4 witness: the amended statement at `x = 2`. -/
theorem mad_small_arrays_witness :
    mad [(2 : ℚ)] = some 0 ∧ mad ([] : List ℚ) = none ∧
    (0 : ℚ) * (fun _ => (1 : ℚ)) 5 = 0 ∧
    softElem 2 ((0 : ℚ) * (fun _ => (1 : ℚ)) 5) = some 2 :=
  mad_small_arrays 2 (fun _ => 1) 5 (by norm_num)

/-- C6 counterexample: pywt's soft thresholding is not the identity at
`thresh = 0` (a zero coefficient maps to NaN, not to itself), and a negative
`thresh` does not fail with a `ValueError`-kind error — it returns normally,
expanding the magnitude (`softThreshold [1] (-1) = [2]`). -/
theorem softThreshold_zero_negative_flaws :
    softElem 0 0 = none ∧ softThreshold [1] (-1) = [some 2] := by
  exact ⟨by decide, by norm_num [softThreshold, softElem]⟩

/-- C6 amended: pywt soft thresholding realises the elementwise contract
`sign(x) * max(|x| - thresh, 0)` whenever `x ≠ 0` or `thresh > 0`; on the
spec's example `[-5, -2, 0, 2, 5]` with `thresh = 2` it yields
`[-3, 0, 0, 0, 3]`; `thresh = 0` is the identity only on nonzero entries
(zero entries become NaN), and a negative `thresh` is accepted without
error. -/
theorem softThreshold_contract (x t : ℚ) (h : x ≠ 0 ∨ 0 < t) :
    softElem x t = some (sgn x * max (|x| - t) 0) ∧
    softThreshold [-5, -2, 0, 2, 5] 2 =
      [some (-3), some 0, some 0, some 0, some 3] ∧
    (x ≠ 0 → softElem x 0 = some x) := by
  refine ⟨softElem_eq_shrink x t h, by norm_num [softThreshold, softElem],
    fun hx => softElem_zero_thresh x hx⟩

/-- C6 witness: the contract at `x = -5`, `thresh = 2`. -/
theorem softThreshold_contract_witness :
    softElem (-5) 2 = some (sgn (-5) * max (|(-5 : ℚ)| - 2) 0) :=
  (softThreshold_contract (-5) 2 (Or.inl (by norm_num))).1

/-- C7: the level-`L` forward transform produces exactly `L + 1` coefficient
arrays (three for the pipeline's depth 2), and the thresholding step
soft-thresholds every detail array (indices 1 and up) while passing the
approximation coefficients at index 0 bit-identically into the coefficient
set handed to the inverse transform. -/
theorem wavedec_frame (lo hi b : List ℚ) (L : ℕ) (t : ℚ) :
    (wavedec lo hi L b).length = L + 1 ∧
    (wavedec lo hi 2 b).length = 3 ∧
    (threshCoeffs (wavedec lo hi 2 b) t).headD [] =
      ((wavedec lo hi 2 b).headD []).map some ∧
    (threshCoeffs (wavedec lo hi 2 b) t).tail =
      ((wavedec lo hi 2 b).tail).map (fun d => softThreshold d t) := by
  refine ⟨wavedec_length lo hi L b, wavedec_length lo hi 2 b, ?_, ?_⟩
  · rw [wavedec_two]; rfl
  · rw [wavedec_two]; rfl

/-! Length behaviour of one processed block. -/
theorem waverecGoO_nil (rlo rhi : List ℚ) (a : List (Option ℚ)) :
    waverecGoO rlo rhi a [] = some a := rfl

theorem waverecGoO_cons (rlo rhi : List ℚ) (a d : List (Option ℚ))
    (ds : List (List (Option ℚ))) :
    waverecGoO rlo rhi a (d :: ds) =
      if a.length = d.length
      then waverecGoO rlo rhi (idwtPerO rlo rhi a d) ds
      else if a.length = d.length + 1
      then waverecGoO rlo rhi (idwtPerO rlo rhi a.dropLast d) ds
      else none := rfl

theorem processBlock_some (g : ℕ → ℚ) (lo hi rlo rhi : List ℚ) (b : List ℚ)
    (hb : b ≠ []) :
    ∃ out, processBlock g lo hi rlo rhi b = some out ∧
      out.length = 2 * ((b.length + 1) / 2) := by
  have hn : 0 < b.length := List.length_pos.mpr hb
  set n := b.length with hnDef
  set c1 := (n + 1) / 2 with hc1
  set c2 := (c1 + 1) / 2 with hc2
  have hcD1 : (dwtHalf hi b).length = c1 := dwtHalf_length hi b
  have hcA1 : (dwtHalf lo b).length = c1 := dwtHalf_length lo b
  have hcA2 : (dwtHalf lo (dwtHalf lo b)).length = c2 := by
    rw [dwtHalf_length, hcA1]
  have hcD2 : (dwtHalf hi (dwtHalf lo b)).length = c2 := by
    rw [dwtHalf_length, hcA1]
  have hc1pos : 0 < c1 := by omega
  have hne : dwtHalf hi b ≠ [] := by
    rw [← List.length_pos, hcD1]; exact hc1pos
  rcases Option.isSome_iff_exists.mp (mad_isSome _ hne) with ⟨sigma, hsigma⟩
  have hlast : (wavedec lo hi 2 b).getLastD [] = dwtHalf hi b := by
    rw [wavedec_two]
    rfl
  have hpb : processBlock g lo hi rlo rhi b =
      waverecO rlo rhi (threshCoeffs (wavedec lo hi 2 b) (sigma * g n)) := by
    unfold processBlock
    rw [hlast, hsigma]
  have hthresh : threshCoeffs (wavedec lo hi 2 b) (sigma * g n) =
      [(dwtHalf lo (dwtHalf lo b)).map some,
       softThreshold (dwtHalf hi (dwtHalf lo b)) (sigma * g n),
       softThreshold (dwtHalf hi b) (sigma * g n)] := by
    rw [wavedec_two]; rfl
  rw [hpb, hthresh]
  set a0 := (dwtHalf lo (dwtHalf lo b)).map some with ha0
  set d2 := softThreshold (dwtHalf hi (dwtHalf lo b)) (sigma * g n) with hd2
  set d1 := softThreshold (dwtHalf hi b) (sigma * g n) with hd1
  have ha0len : a0.length = c2 := by rw [ha0, List.length_map, hcA2]
  have hd2len : d2.length = c2 := by rw [hd2, softThreshold_length, hcD2]
  have hd1len : d1.length = c1 := by rw [hd1, softThreshold_length, hcD1]
  have hgo : waverecO rlo rhi [a0, d2, d1] = waverecGoO rlo rhi a0 [d2, d1] := rfl
  rw [hgo, waverecGoO_cons, if_pos (by rw [ha0len, hd2len])]
  set a1 := idwtPerO rlo rhi a0 d2 with ha1
  have ha1len : a1.length = 2 * c2 := by rw [ha1, idwtPerO_length, ha0len]
  rw [waverecGoO_cons]
  by_cases hpar : 2 * c2 = c1
  · rw [if_pos (by rw [ha1len, hd1len, hpar]), waverecGoO_nil]
    refine ⟨_, rfl, ?_⟩
    rw [idwtPerO_length, ha1len, hpar]
  · have hodd : 2 * c2 = c1 + 1 := by omega
    rw [if_neg (by rw [ha1len, hd1len]; omega),
      if_pos (by rw [ha1len, hd1len]; omega),
      waverecGoO_nil]
    refine ⟨_, rfl, ?_⟩
    rw [idwtPerO_length, List.length_dropLast, ha1len]
    omega

theorem chunk_mem_ne_nil (B : ℕ) (hB : 0 < B) (l : List ℚ) :
    ∀ bl ∈ chunk B l, bl ≠ [] := by
  generalize hN : l.length = N
  induction N using Nat.strong_induction_on generalizing l with
  | _ N ih =>
    match l with
    | [] =>
      intro bl hbl
      rw [chunk] at hbl
      simp [chunkGo] at hbl
    | a :: t =>
      rw [chunk_cons B hB _ (by simp)]
      intro bl hbl
      rcases List.mem_cons.mp hbl with h1 | h2
      · subst h1
        have htl : 0 < ((a :: t).take B).length := by
          rw [List.length_take]
          simp only [List.length_cons]
          omega
        exact List.length_pos.mp htl
      · have hlen : ((a :: t).drop B).length = N - B := by
          simp only [List.length_drop, hN]
        have hNpos : 0 < N := by rw [← hN]; simp
        exact ih (N - B) (by omega) _ hlen bl h2

theorem processAll_lengths (p : List ℚ → Option (List (Option ℚ)))
    (F : List ℚ → ℕ) (bs : List (List ℚ))
    (h : ∀ b ∈ bs, ∃ o, p b = some o ∧ o.length = F b) :
    ∃ os, processAll p bs = some os ∧ os.map List.length = bs.map F := by
  induction bs with
  | nil => exact ⟨[], rfl, rfl⟩
  | cons b t ih =>
    rcases h b (by simp) with ⟨o, ho, hol⟩
    rcases ih (fun x hx => h x (by simp [hx])) with ⟨os, hos, holen⟩
    refine ⟨o :: os, ?_, ?_⟩
    · show processAll p (b :: t) = some (o :: os)
      unfold processAll
      rw [ho, hos]
    · simp [holen, hol]

theorem chunkLens_sum (B N : ℕ) (hB : 0 < B) : (chunkLens B N).sum = N := by
  unfold chunkLens
  have hdm := Nat.div_add_mod N B
  by_cases h : N % B = 0
  · rw [if_pos h, List.append_nil, List.sum_replicate, smul_eq_mul, Nat.mul_comm]
    rw [h, add_zero] at hdm
    exact hdm
  · rw [if_neg h, List.sum_append, List.sum_replicate, smul_eq_mul]
    have hsing : List.sum [N % B] = N % B := by simp
    rw [hsing, Nat.mul_comm]
    exact hdm

/-- Output length of the whole pipeline, for inputs long enough that the
computed block size is positive: every block of length `m` reconstructs to
`2·⌈m/2⌉` samples (periodization), independently of the filter taps and of
the threshold. -/
theorem deNoise_length (g : ℕ → ℚ) (lo hi rlo rhi : List ℚ) (rate : ℕ)
    (input : List ℚ) (hr : 0 < rate) (hN : 10 ≤ input.length) :
    (deNoiseModel g lo hi rlo rhi rate input).map List.length =
      some (((chunkLens (input.length / 10) input.length).map
        (fun m => 2 * ((m + 1) / 2))).sum) := by
  have hBsz := blockSize_frames rate input.length hr
  have hne : input ≠ [] := by
    intro h; rw [h] at hN; simp at hN
  have hB : (blockSize rate ((input.length : ℚ) / (rate : ℚ))).toNat =
      input.length / 10 := by rw [hBsz]; omega
  have hBpos : 0 < input.length / 10 := by omega
  unfold deNoiseModel
  rw [hB, if_neg hne, if_neg hBpos.ne']
  rcases processAll_lengths (processBlock g lo hi rlo rhi)
      (fun b => 2 * ((b.length + 1) / 2)) (chunk (input.length / 10) input)
      (fun b hb => processBlock_some g lo hi rlo rhi b
        (chunk_mem_ne_nil _ hBpos input b hb)) with ⟨os, hos, holen⟩
  rw [hos]
  simp only [Option.map_some']
  rw [List.length_flatten, holen]
  have hmm : (chunk (input.length / 10) input).map
      (fun b => 2 * ((b.length + 1) / 2)) =
      ((chunk (input.length / 10) input).map List.length).map
        (fun m => 2 * ((m + 1) / 2)) := by
    rw [List.map_map]
    rfl
  rw [hmm, chunk_map_length _ hBpos]

/-- C1 counterexample: a 25-sample input (at any rate; 8000 Hz here) gets
block size `⌊25/10⌋ = 2` and blocks of lengths `2,…,2,1`; the final
odd-length block reconstructs to 2 samples under periodization, so `deNoise`
writes 26 samples, not 25.  The output length is independent of the filter
taps and threshold (see `deNoise_length`), so stub taps refute the claim for
the db4 pipeline as well. -/
theorem deNoise_length_counterexample :
    (deNoiseModel (fun _ => 0) [] [] [] [] 8000
        (List.replicate 25 1)).map List.length = some 26 ∧
    (26 : ℕ) ≠ 25 := by
  constructor
  · have h := deNoise_length (fun _ => 0) [] [] [] [] 8000
      (List.replicate 25 1) (by norm_num)
      (by rw [List.length_replicate]; omega)
    rw [h]
    decide
  · decide

/-- C1 amended: the concatenated output has
`Σ_blocks 2·⌈len/2⌉` samples — equal to the input length exactly when every
block (including the final short one) has even length; every odd-length
block contributes one extra sample. -/
theorem deNoise_length_amended (g : ℕ → ℚ) (lo hi rlo rhi : List ℚ)
    (rate : ℕ) (input : List ℚ) (hr : 0 < rate) (hN : 10 ≤ input.length) :
    (deNoiseModel g lo hi rlo rhi rate input).map List.length =
      some (((chunkLens (input.length / 10) input.length).map
        (fun m => 2 * ((m + 1) / 2))).sum) ∧
    ((∀ m ∈ chunkLens (input.length / 10) input.length, m % 2 = 0) →
      (deNoiseModel g lo hi rlo rhi rate input).map List.length =
        some input.length) := by
  refine ⟨deNoise_length g lo hi rlo rhi rate input hr hN, fun hall => ?_⟩
  rw [deNoise_length g lo hi rlo rhi rate input hr hN]
  have hmap : (chunkLens (input.length / 10) input.length).map
      (fun m => 2 * ((m + 1) / 2)) =
      (chunkLens (input.length / 10) input.length).map id := by
    apply List.map_congr_left
    intro m hm
    have := hall m hm
    simp only [id_eq]
    omega
  rw [hmap, List.map_id, chunkLens_sum _ _ (by omega)]

/-- C1 witness: the amended statement at a 30-sample input (block size 3,
blocks `3,…,3`: ten blocks of odd length 3, so 40 output samples). -/
theorem deNoise_length_amended_witness :
    (deNoiseModel (fun _ => 0) [] [] [] [] 8000
        (List.replicate 30 1)).map List.length =
      some (((chunkLens ((List.replicate 30 (1:ℚ)).length / 10)
        (List.replicate 30 (1:ℚ)).length).map
          (fun m => 2 * ((m + 1) / 2))).sum) :=
  (deNoise_length_amended (fun _ => 0) [] [] [] [] 8000
    (List.replicate 30 1) (by norm_num)
    (by rw [List.length_replicate]; omega)).1

theorem getD_pair_zero (i : ℕ) : List.getD [(0 : ℚ), 0] i 0 = 0 := by
  match i with
  | 0 => rfl
  | 1 => rfl
  | n + 2 => simp [List.getD]

theorem dwtHalf_zero_single (f : List ℚ) : dwtHalf f [0] = [0] := by
  have hpe : perExtend [(0 : ℚ)] = [0, 0] := rfl
  unfold dwtHalf
  rw [hpe]
  show (List.range 1).map _ = [0]
  have hr1 : List.range 1 = [0] := rfl
  rw [hr1, List.map_singleton]
  congr 1
  apply Finset.sum_eq_zero
  intro j hj
  unfold cyc
  simp only [List.length_cons, List.length_nil]
  rw [getD_pair_zero, mul_zero]

theorem osmul_none (q : ℚ) : osmul q none = none := rfl

theorem upCycO_single_none (t : ℤ) (ht : t % 2 = 0) :
    upCycO [none] t = none := by
  unfold upCycO
  simp only [List.length_cons, List.length_nil]
  norm_num [ht]

theorem detail_sum_none (rhi : List ℚ) (hrhi : 2 ≤ rhi.length) (k : ℕ) :
    osum ((List.range rhi.length).map (fun j =>
      osmul (rhi.getD j 0)
        (upCycO [none] ((k : ℤ) - (j : ℤ) - 2 + rhi.length)))) = none := by
  apply osum_eq_none
  set j0 : ℤ := ((k : ℤ) + (rhi.length : ℤ)) % 2 with hj0
  have hj0r : 0 ≤ j0 ∧ j0 < 2 := by omega
  set j : ℕ := j0.toNat with hj
  have hjlt : j < rhi.length := by omega
  refine List.mem_map.mpr ⟨j, List.mem_range.mpr hjlt, ?_⟩
  rw [upCycO_single_none _ (by omega), osmul_none]

theorem idwtPerO_to_pair_none (rlo rhi : List ℚ) (hrhi : 2 ≤ rhi.length)
    (ca : List (Option ℚ)) (hca : ca.length = 1) :
    idwtPerO rlo rhi ca [none] = [none, none] := by
  unfold idwtPerO
  rw [hca]
  have h2 : List.range (2 * 1) = [0, 1] := rfl
  rw [h2]
  simp only [List.map_cons, List.map_nil]
  rw [detail_sum_none rhi hrhi 0, detail_sum_none rhi hrhi 1,
    oadd_none_right, oadd_none_right]

/-- Processing a single all-zero block of length 1: all wavelet coefficients
are exactly 0, `sigma = mad [0] = 0`, the threshold is `0 * g 1 = 0`, and
pywt's soft rule maps the zero detail coefficients to NaN; the block
reconstructs to the two-sample NaN block `[NaN, NaN]`. -/
theorem processBlock_zero_block (g : ℕ → ℚ) (lo hi rlo rhi : List ℚ)
    (hrhi : 2 ≤ rhi.length) :
    processBlock g lo hi rlo rhi [0] = some [none, none] := by
  have hw : wavedec lo hi 2 [0] = [[0], [0], [0]] := by
    simp [wavedec_two, dwtHalf_zero_single]
  have hmad : mad [(0 : ℚ)] = some 0 := by
    simp [mad, median, sortQ, insertSorted]
  have hpb : processBlock g lo hi rlo rhi [0] =
      waverecO rlo rhi (threshCoeffs [[0], [0], [0]] ((0 : ℚ) * g 1)) := by
    unfold processBlock
    rw [hw]
    have hlast : ([[(0 : ℚ)], [0], [0]].getLastD []) = [0] := rfl
    rw [hlast, hmad]
    rfl
  rw [hpb, zero_mul]
  have ht : threshCoeffs [[(0 : ℚ)], [0], [0]] 0 =
      [[some 0], [none], [none]] := by decide
  rw [ht]
  have hw0 : waverecO rlo rhi [[some 0], [none], [none]] =
      waverecGoO rlo rhi [some 0] [[none], [none]] := rfl
  rw [hw0, waverecGoO_cons, if_pos (by decide),
    idwtPerO_to_pair_none rlo rhi hrhi [some 0] rfl,
    waverecGoO_cons, if_neg (by decide), if_pos (by decide)]
  have hdl : ([none, none] : List (Option ℚ)).dropLast = [none] := rfl
  rw [hdl, idwtPerO_to_pair_none rlo rhi hrhi [none] rfl, waverecGoO_nil]

theorem processAll_replicate (p : List ℚ → Option (List (Option ℚ)))
    (n : ℕ) (b : List ℚ) (o : List (Option ℚ)) (h : p b = some o) :
    processAll p (List.replicate n b) = some (List.replicate n o) := by
  induction n with
  | zero => rfl
  | succ m ih =>
    rw [List.replicate_succ, List.replicate_succ]
    show processAll p (b :: _) = _
    unfold processAll
    rw [h, ih]

/-- C9 (code bug): denoising a silent input does not yield a silent output.
For a 10-sample all-zero input the block size is 1, every block is the zero
block `[0]`, its threshold is exactly 0, and pywt's soft thresholding turns
each zero detail coefficient into NaN (`0/0` inside `1 - value/|data|`), so
the written output is 20 NaN samples — neither zero nor of the input's
length.  The statement holds for arbitrary taps with the db4 tap-list
lengths (8 ≥ 2), and for every threshold model `g`. -/
theorem deNoise_silent_input_nan (g : ℕ → ℚ) (lo hi rlo rhi : List ℚ)
    (rate : ℕ) (hr : 0 < rate) (hrhi : 2 ≤ rhi.length) :
    deNoiseModel g lo hi rlo rhi rate (List.replicate 10 0) =
      some (List.replicate 20 none) := by
  have hB := blockSize_frames rate 10 hr
  unfold deNoiseModel
  simp only [List.length_replicate]
  rw [hB]
  rw [if_neg (by simp), if_neg (by decide)]
  have hch : chunk ((10 / 10 : ℕ) : ℤ).toNat (List.replicate 10 (0 : ℚ)) =
      List.replicate 10 [0] := by decide
  rw [hch, processAll_replicate _ 10 [0] [none, none]
    (processBlock_zero_block g lo hi rlo rhi hrhi)]
  rfl

/-- C9 witness: the silent-input behaviour at 8000 Hz with length-8 stub
synthesis taps. -/
theorem deNoise_silent_input_nan_witness :
    deNoiseModel (fun _ => 0) [] [] [] [0, 0, 0, 0, 0, 0, 0, 0] 8000
      (List.replicate 10 0) = some (List.replicate 20 none) :=
  deNoise_silent_input_nan (fun _ => 0) [] [] [] [0, 0, 0, 0, 0, 0, 0, 0]
    8000 (by norm_num) (by decide)

/-- C5 counterexample: the length-1 boundary is not a pass-through.  A
length-1 block is periodically extended and reconstructs to two output
samples (lengths are independent of the filter taps, see
`processBlock_some`), so the processed block differs from the input block. -/
theorem length_one_block_not_passthrough :
    (processBlock (fun _ => 0) [] [] [] [] [1]).map List.length = some 2 ∧
    (2 : ℕ) ≠ 1 := by
  constructor
  · rcases processBlock_some (fun _ => 0) [] [] [] [] [1] (by simp)
      with ⟨out, ho, hl⟩
    rw [ho, Option.map_some']
    simp at hl
    rw [hl]
  · decide

/-- C5 amended: computing `ln(len(b))` at the length-≤1 boundary never
faults: for a length-1 block the exact threshold is
`sigma * sqrt(2 · ln 1) = 0`, an empty input processes no blocks and returns
an empty output, and at threshold 0 every nonzero detail coefficient passes
through unshrunk — but a length-1 block still reconstructs to 2 samples
(and exactly-zero coefficients become NaN), so the boundary is not a literal
block pass-through. -/
theorem degenerate_block_boundary (s : ℝ) (g : ℕ → ℚ)
    (lo hi rlo rhi : List ℚ) (rate : ℕ) (x : ℚ) (hx : x ≠ 0) :
    visuThreshold s 1 0 ∧
    deNoiseModel g lo hi rlo rhi rate [] = some [] ∧
    softElem x 0 = some x ∧
    (∃ out, processBlock g lo hi rlo rhi [x] = some out ∧ out.length = 2) := by
  refine ⟨?_, rfl, softElem_zero_thresh x hx, ?_⟩
  · unfold visuThreshold
    simp
  · rcases processBlock_some g lo hi rlo rhi [x] (by simp) with ⟨out, ho, hl⟩
    exact ⟨out, ho, by simpa using hl⟩

/-- C5 witness: the boundary statement at `sigma = 0`, `x = 1`, stub taps. -/
theorem degenerate_block_boundary_witness :
    visuThreshold 0 1 0 ∧
    deNoiseModel (fun _ => 0) [] [] [] [] 8000 [] = some [] ∧
    softElem 1 0 = some 1 ∧
    (∃ out, processBlock (fun _ => 0) [] [] [] [] [1] = some out ∧
      out.length = 2) :=
  degenerate_block_boundary 0 (fun _ => 0) [] [] [] [] 8000 1 (by norm_num)

/-- C8: the error taxonomy of the noise-profile wrapper `generateNoiseProfileTo`:
a missing input file fails with the not-found kind; an unreadable/corrupt
input fails with the read-failure kind wrapping the library's cause message;
an unwritable output path fails with the write-failure kind wrapping the
cause; each error propagates to the caller unmodified in kind. -/
theorem noiseProfileTo_errors (profiler : List ℚ → List ℚ) (fs : FileSystem)
    (nf out : String) :
    (fs.contents nf = none →
      generateNoiseProfileTo profiler fs nf out = .error (.notFound nf)) ∧
    (∀ d, fs.contents nf = some d → fs.readOk nf = false →
      generateNoiseProfileTo profiler fs nf out =
        .error (.readFail nf (fs.readMsg nf))) ∧
    (∀ d, fs.contents nf = some d → fs.readOk nf = true →
      fs.writeOk out = false →
      generateNoiseProfileTo profiler fs nf out =
        .error (.writeFail out (fs.writeMsg out))) := by
  refine ⟨fun h => ?_, fun d h1 h2 => ?_, fun d h1 h2 h3 => ?_⟩
  · simp [generateNoiseProfileTo, h]
  · simp [generateNoiseProfileTo, fsRead, h1, h2]
  · simp [generateNoiseProfileTo, fsRead, fsWrite, h1, h2, h3]

/-- C8 witness: the three failure kinds on three small concrete file
systems. -/
theorem noiseProfileTo_errors_witness :
    (generateNoiseProfileTo (fun s => s)
      { contents := fun _ => none, readOk := fun _ => true,
        readMsg := fun _ => "r", writeOk := fun _ => true,
        writeMsg := fun _ => "w" } "n" "o" = .error (.notFound "n")) ∧
    (generateNoiseProfileTo (fun s => s)
      { contents := fun _ => some ⟨[1], 8⟩, readOk := fun _ => false,
        readMsg := fun _ => "r", writeOk := fun _ => true,
        writeMsg := fun _ => "w" } "n" "o" = .error (.readFail "n" "r")) ∧
    (generateNoiseProfileTo (fun s => s)
      { contents := fun _ => some ⟨[1], 8⟩, readOk := fun _ => true,
        readMsg := fun _ => "r", writeOk := fun _ => false,
        writeMsg := fun _ => "w" } "n" "o" = .error (.writeFail "o" "w")) :=
  ⟨(noiseProfileTo_errors (fun s => s) _ "n" "o").1 rfl,
   (noiseProfileTo_errors (fun s => s) _ "n" "o").2.1 ⟨[1], 8⟩ rfl rfl,
   (noiseProfileTo_errors (fun s => s) _ "n" "o").2.2 ⟨[1], 8⟩ rfl rfl rfl⟩

/-- C10: on an existing readable noise file at path `p`,
`generateNoiseProfile p` overwrites `p` itself with the predicted noise
waveform (at the original rate) — the original noise sample is destroyed —
whereas `generateNoiseProfileTo p out` writes the prediction to the separate
path `out` and leaves the contents at `p` unchanged. -/
theorem noiseProfile_overwrites (profiler : List ℚ → List ℚ)
    (fs : FileSystem) (p out : String) (d : AudioData)
    (hc : fs.contents p = some d) (hr : fs.readOk p = true)
    (hw : fs.writeOk p = true) (hwo : fs.writeOk out = true)
    (hne : out ≠ p) :
    (∃ fs1, generateNoiseProfile profiler fs p = .ok fs1 ∧
      fs1.contents p = some ⟨profiler d.samples, d.rate⟩) ∧
    (∃ fs2, generateNoiseProfileTo profiler fs p out = .ok fs2 ∧
      fs2.contents out = some ⟨profiler d.samples, d.rate⟩ ∧
      fs2.contents p = fs.contents p) := by
  constructor
  · refine ⟨{ fs with contents := fun q =>
        if q = p then some ⟨profiler d.samples, d.rate⟩ else fs.contents q },
      ?_, ?_⟩
    · simp [generateNoiseProfile, fsRead, fsWrite, hc, hr, hw]
    · simp
  · refine ⟨{ fs with contents := fun q =>
        if q = out then some ⟨profiler d.samples, d.rate⟩ else fs.contents q },
      ?_, ?_, ?_⟩
    · simp [generateNoiseProfileTo, fsRead, fsWrite, hc, hr, hwo]
    · simp
    · simp [Ne.symm hne]

/-- C10 witness: the overwrite behaviour on a small concrete file system. -/
theorem noiseProfile_overwrites_witness :
    (∃ fs1, generateNoiseProfile (fun s => s)
      { contents := fun q => if q = "noise.wav" then some ⟨[3], 8000⟩ else none,
        readOk := fun _ => true, readMsg := fun _ => "r",
        writeOk := fun _ => true, writeMsg := fun _ => "w" } "noise.wav" =
        .ok fs1 ∧
      fs1.contents "noise.wav" = some ⟨(fun s => s) [3], 8000⟩) ∧
    (∃ fs2, generateNoiseProfileTo (fun s => s)
      { contents := fun q => if q = "noise.wav" then some ⟨[3], 8000⟩ else none,
        readOk := fun _ => true, readMsg := fun _ => "r",
        writeOk := fun _ => true, writeMsg := fun _ => "w" } "noise.wav"
        "out.wav" = .ok fs2 ∧
      fs2.contents "out.wav" = some ⟨(fun s => s) [3], 8000⟩ ∧
      fs2.contents "noise.wav" =
        ({ contents := fun q => if q = "noise.wav" then some ⟨[3], 8000⟩ else none,
           readOk := fun _ => true, readMsg := fun _ => "r",
           writeOk := fun _ => true, writeMsg := fun _ => "w" } :
          FileSystem).contents "noise.wav") :=
  noiseProfile_overwrites (fun s => s) _ "noise.wav" "out.wav" ⟨[3], 8000⟩
    (by simp) rfl rfl rfl (by decide)

theorem perExtend_even (l : List ℚ) (h : l.length % 2 = 0) : perExtend l = l := by
  unfold perExtend
  rw [if_neg (by omega)]

theorem idwtPer_length (rlo rhi : List ℚ) (ca cd : List ℚ) :
    (idwtPer rlo rhi ca cd).length = 2 * ca.length := by
  unfold idwtPer
  rw [List.length_map, List.length_range]

theorem waverecGo_nil (rlo rhi : List ℚ) (a : List ℚ) :
    waverecGo rlo rhi a [] = some a := rfl

theorem waverecGo_cons (rlo rhi : List ℚ) (a d : List ℚ) (ds : List (List ℚ)) :
    waverecGo rlo rhi a (d :: ds) =
      if a.length = d.length
      then waverecGo rlo rhi (idwtPer rlo rhi a d) ds
      else if a.length = d.length + 1
      then waverecGo rlo rhi (idwtPer rlo rhi a.dropLast d) ds
      else none := rfl

theorem emod_toNat_lt (t : ℤ) (n : ℕ) (hn : 0 < n) :
    (t % (n : ℤ)).toNat < n := by
  have h1 : 0 ≤ t % (n : ℤ) :=
    Int.emod_nonneg t (by exact_mod_cast hn.ne')
  have h2 : t % (n : ℤ) < (n : ℤ) :=
    Int.emod_lt_of_pos t (by exact_mod_cast hn)
  omega

theorem emod_toNat_eq_iff (a : ℤ) (n c : ℕ) (hn : 0 < n) (hc : c < n) :
    ((a % (n : ℤ)).toNat = c) ↔ (a % (n : ℤ) = (c : ℤ)) := by
  have h1 : 0 ≤ a % (n : ℤ) :=
    Int.emod_nonneg a (by exact_mod_cast hn.ne')
  omega

theorem cyc_eq_sum (x : List ℚ) (n : ℕ) (hx : x.length = n) (hn : 0 < n)
    (t : ℤ) :
    cyc x t = ∑ k ∈ Finset.range n,
      if t % (n : ℤ) = (k : ℤ) then x.getD k 0 else 0 := by
  unfold cyc
  rw [hx]
  have h1 : x.getD ((t % (n : ℤ)).toNat) 0 =
      ∑ k ∈ Finset.range n,
        if (t % (n : ℤ)).toNat = k then x.getD k 0 else 0 := by
    rw [Finset.sum_ite_eq (Finset.range n) ((t % (n : ℤ)).toNat)
      (fun k => x.getD k 0),
      if_pos (Finset.mem_range.mpr (emod_toNat_lt t n hn))]
  rw [h1]
  apply Finset.sum_congr rfl
  intro k hk
  congr 1
  exact propext (emod_toNat_eq_iff t n k hn (Finset.mem_range.mp hk))

theorem getD_reverse (f : List ℚ) (j : ℕ) (hj : j < f.length) :
    f.reverse.getD (f.length - 1 - j) 0 = f.getD j 0 := by
  have h1 : f.length - 1 - j < f.reverse.length := by
    rw [List.length_reverse]; omega
  rw [List.getD_eq_getElem _ _ h1, List.getD_eq_getElem _ _ hj,
    List.getElem_reverse]
  congr 1
  omega

theorem emod_shift_iff (n : ℤ) (hn : 0 < n) (u v c w : ℤ)
    (hc0 : 0 ≤ c) (hc : c < n) (hw0 : 0 ≤ w) (hw : w < n)
    (hsum : u + v = c + w) :
    u % n = c ↔ v % n = w := by
  have hc' : c % n = c := Int.emod_eq_of_lt hc0 hc
  have hw' : w % n = w := Int.emod_eq_of_lt hw0 hw
  constructor
  · intro h
    have h1 : n ∣ u - c := Int.dvd_sub_of_emod_eq h
    have h2 : n ∣ v - w := by
      have hdvd : v - w = -(u - c) := by linarith
      rw [hdvd]
      exact dvd_neg.mpr h1
    obtain ⟨z, hz⟩ := h2
    have hv : v = w + n * z := by linarith
    rw [hv, Int.add_mul_emod_self_left, hw']
  · intro h
    have h1 : n ∣ v - w := Int.dvd_sub_of_emod_eq h
    have h2 : n ∣ u - c := by
      have hdvd : u - c = -(v - w) := by linarith
      rw [hdvd]
      exact dvd_neg.mpr h1
    obtain ⟨z, hz⟩ := h2
    have hu : u = c + n * z := by linarith
    rw [hu, Int.add_mul_emod_self_left, hc']

theorem upCyc_eq_sum (c : List ℚ) (m : ℕ) (hc : c.length = m) (hm : 0 < m)
    (t : ℤ) :
    upCyc c t = ∑ i ∈ Finset.range m,
      if t % (2 * (m : ℤ)) = 2 * (i : ℤ) then c.getD i 0 else 0 := by
  unfold upCyc
  simp only [hc]
  have hlt : (t % (2 * (m : ℤ))).toNat < 2 * m := by
    have hcast : (2 * (m : ℤ)) = ((2 * m : ℕ) : ℤ) := by push_cast; ring
    rw [hcast]
    exact emod_toNat_lt t (2 * m) (by omega)
  set t' := (t % (2 * (m : ℤ))).toNat with ht'
  by_cases hpar : t' % 2 = 0
  · rw [if_pos hpar]
    have hhalf : t' / 2 < m := by omega
    calc c.getD (t' / 2) 0
        = if t' / 2 ∈ Finset.range m then c.getD (t' / 2) 0 else 0 := by
          rw [if_pos (Finset.mem_range.mpr hhalf)]
      _ = ∑ i ∈ Finset.range m, if t' / 2 = i then c.getD i 0 else 0 := by
          rw [Finset.sum_ite_eq]
      _ = ∑ i ∈ Finset.range m,
            if t % (2 * (m : ℤ)) = 2 * (i : ℤ) then c.getD i 0 else 0 := by
          apply Finset.sum_congr rfl
          intro i _
          congr 1
          apply propext
          have hnn : 0 ≤ t % (2 * (m : ℤ)) :=
            Int.emod_nonneg t (by omega)
          constructor <;> intro h <;> omega
  · rw [if_neg hpar]
    symm
    apply Finset.sum_eq_zero
    intro i _
    have hnn : 0 ≤ t % (2 * (m : ℤ)) :=
      Int.emod_nonneg t (by omega)
    rw [if_neg (by omega)]

theorem dwtHalf_getD (f x : List ℚ) (n : ℕ) (hx : x.length = n)
    (heven : n % 2 = 0) (hn : 0 < n) (i : ℕ) (hi : i < n / 2) :
    (dwtHalf f x).getD i 0 =
      ∑ k ∈ Finset.range n, perWeight f n i k * x.getD k 0 := by
  have hpe : perExtend x = x := perExtend_even x (by rw [hx]; exact heven)
  unfold dwtHalf
  simp only [hpe, hx]
  have hlen : i < ((List.range (n / 2)).map (fun (i : ℕ) =>
      ∑ j ∈ Finset.range f.length,
        f.getD j 0 * cyc x (2 * (i : ℤ) + 1 - (j : ℤ)))).length := by
    rw [List.length_map, List.length_range]
    exact hi
  rw [List.getD_eq_getElem _ _ hlen, List.getElem_map, List.getElem_range]
  have hcyc : ∀ j : ℕ, cyc x (2 * (i : ℤ) + 1 - (j : ℤ)) =
      ∑ k ∈ Finset.range n,
        if (2 * (i : ℤ) + 1 - (j : ℤ)) % (n : ℤ) = (k : ℤ)
        then x.getD k 0 else 0 :=
    fun j => cyc_eq_sum x n hx hn _
  simp only [hcyc, Finset.mul_sum]
  rw [Finset.sum_comm]
  apply Finset.sum_congr rfl
  intro k _
  rw [perWeight, Finset.sum_mul]
  apply Finset.sum_congr rfl
  intro j _
  by_cases hcond : (2 * (i : ℤ) + 1 - (j : ℤ)) % (n : ℤ) = (k : ℤ)
  · rw [if_pos hcond, if_pos hcond]
  · rw [if_neg hcond, if_neg hcond, mul_zero, zero_mul]

theorem synth_half (f : List ℚ) (c : List ℚ) (m : ℕ) (hc : c.length = m)
    (hm : 0 < m) (k : ℕ) (hk : k < 2 * m) :
    (∑ j ∈ Finset.range f.reverse.length,
      f.reverse.getD j 0 *
        upCyc c ((k : ℤ) - (j : ℤ) - 2 + (f.reverse.length : ℤ))) =
    ∑ i ∈ Finset.range m, perWeight f (2 * m) i k * c.getD i 0 := by
  simp only [List.length_reverse]
  set F := f.length with hF
  rw [← Finset.sum_range_reflect]
  have hterm : ∀ j ∈ Finset.range F,
      f.reverse.getD (F - 1 - j) 0 *
        upCyc c ((k : ℤ) - ((F - 1 - j : ℕ) : ℤ) - 2 + (F : ℤ)) =
      f.getD j 0 *
        ∑ i ∈ Finset.range m,
          if ((k : ℤ) + (j : ℤ) - 1) % (2 * (m : ℤ)) = 2 * (i : ℤ)
          then c.getD i 0 else 0 := by
    intro j hj
    have hjF : j < F := Finset.mem_range.mp hj
    rw [getD_reverse f j hjF]
    congr 1
    have harg : (k : ℤ) - ((F - 1 - j : ℕ) : ℤ) - 2 + (F : ℤ) =
        (k : ℤ) + (j : ℤ) - 1 := by
      have hsub : ((F - 1 - j : ℕ) : ℤ) = (F : ℤ) - 1 - (j : ℤ) := by
        push_cast [Nat.cast_sub (by omega : j ≤ F - 1),
          Nat.cast_sub (by omega : 1 ≤ F)]
        ring
      rw [hsub]
      ring
    rw [harg]
    exact upCyc_eq_sum c m hc hm _
  rw [Finset.sum_congr rfl hterm]
  simp only [Finset.mul_sum]
  rw [Finset.sum_comm]
  apply Finset.sum_congr rfl
  intro i hi
  rw [perWeight, Finset.sum_mul]
  apply Finset.sum_congr rfl
  intro j _
  have him : i < m := Finset.mem_range.mp hi
  have hiff : (((k : ℤ) + (j : ℤ) - 1) % (2 * (m : ℤ)) = 2 * (i : ℤ)) ↔
      ((2 * (i : ℤ) + 1 - (j : ℤ)) % ((2 * m : ℕ) : ℤ) = (k : ℤ)) := by
    have hcast : ((2 * m : ℕ) : ℤ) = 2 * (m : ℤ) := by push_cast; ring
    rw [hcast]
    exact emod_shift_iff (2 * (m : ℤ)) (by omega) _ _ (2 * (i : ℤ)) (k : ℤ)
      (by omega) (by omega) (by omega) (by omega) (by ring)
  by_cases hcond : ((k : ℤ) + (j : ℤ) - 1) % (2 * (m : ℤ)) = 2 * (i : ℤ)
  · rw [if_pos hcond, if_pos (hiff.mp hcond), mul_comm]
  · rw [if_neg hcond, if_neg (fun hco => hcond (hiff.mpr hco)), mul_zero,
      zero_mul]

theorem idwtPer_getD (lo hi : List ℚ) (ca cd : List ℚ) (m : ℕ)
    (hca : ca.length = m) (hcd : cd.length = m) (hm : 0 < m) (k : ℕ)
    (hk : k < 2 * m) :
    (idwtPer lo.reverse hi.reverse ca cd).getD k 0 =
      (∑ i ∈ Finset.range m, perWeight lo (2 * m) i k * ca.getD i 0) +
      ∑ i ∈ Finset.range m, perWeight hi (2 * m) i k * cd.getD i 0 := by
  unfold idwtPer
  have hlen : k < ((List.range (2 * ca.length)).map (fun (k : ℕ) =>
      (∑ j ∈ Finset.range lo.reverse.length,
        lo.reverse.getD j 0 *
          upCyc ca ((k : ℤ) - (j : ℤ) - 2 + (lo.reverse.length : ℤ))) +
      ∑ j ∈ Finset.range hi.reverse.length,
        hi.reverse.getD j 0 *
          upCyc cd ((k : ℤ) - (j : ℤ) - 2 + (hi.reverse.length : ℤ)))).length := by
    rw [List.length_map, List.length_range, hca]
    exact hk
  rw [List.getD_eq_getElem _ _ hlen, List.getElem_map, List.getElem_range,
    synth_half lo ca m hca hm k hk, synth_half hi cd m hcd hm k hk]

theorem idwt_dwt_single (lo hi x : List ℚ) (m : ℕ) (hx : x.length = 2 * m)
    (hm : 0 < m) (hortho : orthoRows lo hi (2 * m)) :
    idwtPer lo.reverse hi.reverse (dwtHalf lo x) (dwtHalf hi x) = x := by
  have heven : (2 * m) % 2 = 0 := by omega
  have hdiv : (2 * m) / 2 = m := by omega
  have hca : (dwtHalf lo x).length = m := by
    rw [dwtHalf_length, hx]; omega
  have hcd : (dwtHalf hi x).length = m := by
    rw [dwtHalf_length, hx]; omega
  apply List.ext_getElem
  · rw [idwtPer_length, hca, hx]
  intro k h1 h2
  have hk : k < 2 * m := by rw [hx] at h2; exact h2
  rw [← List.getD_eq_getElem _ 0 h1, ← List.getD_eq_getElem _ 0 h2,
    idwtPer_getD lo hi _ _ m hca hcd hm k hk]
  have hA : ∀ i ∈ Finset.range m, (dwtHalf lo x).getD i 0 =
      ∑ k' ∈ Finset.range (2 * m), perWeight lo (2 * m) i k' * x.getD k' 0 :=
    fun i hmem => dwtHalf_getD lo x (2 * m) hx heven (by omega) i
      (by have := Finset.mem_range.mp hmem; omega)
  have hB : ∀ i ∈ Finset.range m, (dwtHalf hi x).getD i 0 =
      ∑ k' ∈ Finset.range (2 * m), perWeight hi (2 * m) i k' * x.getD k' 0 :=
    fun i hmem => dwtHalf_getD hi x (2 * m) hx heven (by omega) i
      (by have := Finset.mem_range.mp hmem; omega)
  have e1 : (∑ i ∈ Finset.range m,
      perWeight lo (2 * m) i k * (dwtHalf lo x).getD i 0) =
      ∑ k' ∈ Finset.range (2 * m), ∑ i ∈ Finset.range m,
        perWeight lo (2 * m) i k * (perWeight lo (2 * m) i k' * x.getD k' 0) := by
    rw [Finset.sum_congr rfl (fun i hi => by rw [hA i hi, Finset.mul_sum])]
    exact Finset.sum_comm
  have e2 : (∑ i ∈ Finset.range m,
      perWeight hi (2 * m) i k * (dwtHalf hi x).getD i 0) =
      ∑ k' ∈ Finset.range (2 * m), ∑ i ∈ Finset.range m,
        perWeight hi (2 * m) i k * (perWeight hi (2 * m) i k' * x.getD k' 0) := by
    rw [Finset.sum_congr rfl (fun i hi => by rw [hB i hi, Finset.mul_sum])]
    exact Finset.sum_comm
  rw [e1, e2, ← Finset.sum_add_distrib]
  have e3 : ∀ k' ∈ Finset.range (2 * m),
      ((∑ i ∈ Finset.range m,
        perWeight lo (2 * m) i k * (perWeight lo (2 * m) i k' * x.getD k' 0)) +
       ∑ i ∈ Finset.range m,
        perWeight hi (2 * m) i k * (perWeight hi (2 * m) i k' * x.getD k' 0)) =
      (if k = k' then (1 : ℚ) else 0) * x.getD k' 0 := by
    intro k' hk'
    have ho := hortho k (Finset.mem_range.mpr hk) k' hk'
    rw [hdiv] at ho
    rw [← ho, Finset.sum_mul, ← Finset.sum_add_distrib]
    apply Finset.sum_congr rfl
    intro i _
    ring
  rw [Finset.sum_congr rfl e3]
  have e4 : ∀ k' ∈ Finset.range (2 * m),
      (if k = k' then (1 : ℚ) else 0) * x.getD k' 0 =
      if k = k' then x.getD k' 0 else 0 := by
    intro k' _
    by_cases h : k = k'
    · rw [if_pos h, if_pos h, one_mul]
    · rw [if_neg h, if_neg h, zero_mul]
  rw [Finset.sum_congr rfl e4, Finset.sum_ite_eq,
    if_pos (Finset.mem_range.mpr hk)]

/-- C3: round-trip law of the transform used by `deNoise`:
`waverec(wavedec(x, level 2, mode per), mode per)` reproduces `x` exactly,
independently of thresholding, for every block `x` whose length is
compatible with the basis and the periodic mode (a multiple of 4 for depth
2) and for every analysis filter pair whose periodized analysis rows are
exactly orthonormal at the two lengths involved — the property that the
Daubechies-4 pair has over the reals and that its double-precision taps have
up to floating-point rounding ("within floating-point tolerance"); the
synthesis filters of an orthogonal wavelet are the reversed analysis
filters. -/
theorem waverec_wavedec_roundtrip (lo hi x : List ℚ) (n : ℕ)
    (hx : x.length = n) (h4 : n % 4 = 0) (hn : 0 < n)
    (ho1 : orthoRows lo hi n) (ho2 : orthoRows lo hi (n / 2)) :
    waverec lo.reverse hi.reverse (wavedec lo hi 2 x) = some x := by
  have hc1 : (dwtHalf lo x).length = n / 2 := by
    rw [dwtHalf_length, hx]; omega
  have hd1 : (dwtHalf hi x).length = n / 2 := by
    rw [dwtHalf_length, hx]; omega
  have hc2 : (dwtHalf lo (dwtHalf lo x)).length = n / 4 := by
    rw [dwtHalf_length, hc1]; omega
  have hd2 : (dwtHalf hi (dwtHalf lo x)).length = n / 4 := by
    rw [dwtHalf_length, hc1]; omega
  rw [wavedec_two]
  show waverecGo lo.reverse hi.reverse (dwtHalf lo (dwtHalf lo x))
    [dwtHalf hi (dwtHalf lo x), dwtHalf hi x] = some x
  rw [waverecGo_cons, if_pos (by rw [hc2, hd2])]
  have hstep1 : idwtPer lo.reverse hi.reverse (dwtHalf lo (dwtHalf lo x))
      (dwtHalf hi (dwtHalf lo x)) = dwtHalf lo x := by
    apply idwt_dwt_single lo hi (dwtHalf lo x) (n / 4)
    · rw [hc1]; omega
    · omega
    · have h24 : 2 * (n / 4) = n / 2 := by omega
      rw [h24]; exact ho2
  rw [hstep1, waverecGo_cons, if_pos (by rw [hc1, hd1])]
  have hstep2 : idwtPer lo.reverse hi.reverse (dwtHalf lo x) (dwtHalf hi x)
      = x := by
    apply idwt_dwt_single lo hi x (n / 2)
    · rw [hx]; omega
    · omega
    · have h22 : 2 * (n / 2) = n := by omega
      rw [h22]; exact ho1
  rw [hstep2, waverecGo_nil]

/-- C3 witness: the round-trip at length 4 with a rational filter pair whose
periodized analysis rows are exactly orthonormal. -/
theorem waverec_wavedec_roundtrip_witness :
    orthoRows [3/5, 4/5] [4/5, -3/5] 4 ∧
    orthoRows [3/5, 4/5] [4/5, -3/5] (4 / 2) ∧
    waverec ([3/5, 4/5] : List ℚ).reverse ([4/5, -3/5] : List ℚ).reverse
      (wavedec [3/5, 4/5] [4/5, -3/5] 2 [1, 2, 3, 4]) = some [1, 2, 3, 4] := by
  have ho4 : orthoRows [3/5, 4/5] [4/5, -3/5] 4 := by
    unfold orthoRows
    intro k hk k' hk'
    fin_cases hk <;> fin_cases hk' <;>
      norm_num [perWeight, Finset.sum_range_succ, Finset.sum_range_zero]
  have ho2 : orthoRows [3/5, 4/5] [4/5, -3/5] (4 / 2) := by
    unfold orthoRows
    intro k hk k' hk'
    fin_cases hk <;> fin_cases hk' <;>
      norm_num [perWeight, Finset.sum_range_succ, Finset.sum_range_zero]
  exact ⟨ho4, ho2,
    waverec_wavedec_roundtrip [3/5, 4/5] [4/5, -3/5] [1, 2, 3, 4] 4 rfl
      (by norm_num) (by norm_num) ho4 ho2⟩

end AudioDenoise
